import Mathlib

/-!
Verification of the JSON deduplication tool (`src/json_dedupe.py`).

The source represents JSON values with Python's native dynamic types
(`None`, `bool`, `int`, `float`, `str`, `list`, `dict`, and the `tuple`s
produced by `normalize_value`).  We embed that value universe shallowly as
the inductive type `PyVal` below (floats are left out of the model: no
claim under consideration involves them, and floating point does not
translate to the embedding).

The embedded operations, in one-to-one correspondence with the source:
  * `isPrimitive`       — `isinstance(x, PRIMITIVE_TYPES)` with
                          `PRIMITIVE_TYPES = (int, float, str, bool)`;
                          note `NoneType` is NOT in the tuple.
  * `pyEq`              — Python `==` on the embedded values.
  * `pyLt`              — Python `<`; a partial operation: comparing
                          values of unrelated types raises `TypeError`,
                          modelled as `none`.
  * `pySorted`          — Python's builtin `sorted`, modelled as the
                          stable left-to-right insertion sort with
                          `TypeError` propagation.  On inputs whose
                          outcome is algorithm-independent (every
                          comparison defined, or a single comparison that
                          raises) this agrees with CPython's Timsort.
  * `normalize_value`   — the canonicalizer (source lines 56–69).
  * `dumps`             — `json.dumps(·, sort_keys=True)` with default
                          options (ASCII escaping, separators ", "/": ").
  * `canonicalKey`      — the key computed in `solve`:
                          `json.dumps(normalize_value(d), sort_keys=True)`.
  * `solve`             — the dedupe loop (source lines 71–88).

A raised exception anywhere is modelled by `Option`: `none` means the
Python call raises and produces no result.
-/

inductive PyVal : Type where
  | VNone : PyVal
  | VBool (b : Bool) : PyVal
  | VInt (n : Int) : PyVal
  | VStr (s : String) : PyVal
  | VList (xs : List PyVal) : PyVal
  | VTuple (xs : List PyVal) : PyVal
  | VDict (kvs : List (String × PyVal)) : PyVal

open PyVal

/-- `isinstance(x, PRIMITIVE_TYPES)` where `PRIMITIVE_TYPES = (int, float,
str, bool)` (source line 54).  `None` is not an instance of any of these
types, so `isPrimitive VNone = false`, exactly as in the source. -/
def isPrimitive : PyVal → Bool
  | VBool _ => true
  | VInt _ => true
  | VStr _ => true
  | _ => false

/-- The numeric value of a Python number in the embedded fragment:
`bool` is a subtype of `int` in Python, `True == 1` and `False == 0`. -/
def numVal : PyVal → Option Int
  | VBool b => some (if b then 1 else 0)
  | VInt n => some n
  | _ => none

/-- Python `<` on strings: lexicographic by code point. -/
def strLtAux : List Char → List Char → Bool
  | [], [] => false
  | [], _ :: _ => true
  | _ :: _, [] => false
  | c :: cs, d :: ds =>
    if c.toNat < d.toNat then true
    else if d.toNat < c.toNat then false
    else strLtAux cs ds

/-- Python `<` on strings, as a function of the two strings. -/
def strLt (s t : String) : Bool := strLtAux s.data t.data

mutual
/-- Python `==` on embedded values.  Total (Python equality never raises):
numbers compare by numeric value across `bool`/`int`, strings and `None`
structurally, sequences elementwise (a `list` is never `==` to a `tuple`),
dicts as unordered key-value mappings, and any other cross-type pair is
unequal. -/
def pyEq : PyVal → PyVal → Bool
  | VNone, VNone => true
  | VStr s, VStr t => s = t
  | VList xs, VList ys => pyEqList xs ys
  | VTuple xs, VTuple ys => pyEqList xs ys
  | VDict d1, VDict d2 => d1.length = d2.length && pyEqPairs d1 d2
  | a, b =>
    match numVal a, numVal b with
    | some n, some m => n = m
    | _, _ => false

/-- Elementwise Python `==` of two sequences (same length required). -/
def pyEqList : List PyVal → List PyVal → Bool
  | [], [] => true
  | x :: xs, y :: ys => pyEq x y && pyEqList xs ys
  | _, _ => false

/-- Every pair of the first dict is `==` to the value found under the same
key in the second dict. -/
def pyEqPairs : List (String × PyVal) → List (String × PyVal) → Bool
  | [], _ => true
  | (k, v) :: rest, d2 =>
    (match d2.lookup k with
     | some w => pyEq v w
     | none => false) && pyEqPairs rest d2
end

mutual
/-- Python `<` on embedded values; `none` models `TypeError`.  Numbers
(`bool`/`int`) compare numerically, strings by code point, `list` with
`list` and `tuple` with `tuple` lexicographically; every other combination
(`None` with anything, cross-type pairs, dicts) raises. -/
def pyLt : PyVal → PyVal → Option Bool
  | VStr s, VStr t => some (strLt s t)
  | VList xs, VList ys => pyLexLt xs ys
  | VTuple xs, VTuple ys => pyLexLt xs ys
  | a, b =>
    match numVal a, numVal b with
    | some n, some m => some (decide (n < m))
    | _, _ => none

/-- Lexicographic `<` of two Python sequences: scan for the first index at
which the elements are not `==`, compare there with `<` (which may raise);
if one sequence is a prefix of the other, the shorter is smaller. -/
def pyLexLt : List PyVal → List PyVal → Option Bool
  | [], [] => some false
  | [], _ :: _ => some true
  | _ :: _, [] => some false
  | x :: xs, y :: ys => if pyEq x y then pyLexLt xs ys else pyLt x y
end

/-- Insert `x` into the already sorted `acc`, placing it before the first
element strictly greater than it (so after any element it ties with —
stability).  A raising comparison aborts the whole sort. -/
def insortPy (x : PyVal) : List PyVal → Option (List PyVal)
  | [] => some [x]
  | y :: ys =>
    match pyLt x y with
    | none => none
    | some true => some (x :: y :: ys)
    | some false => (insortPy x ys).map (fun r => y :: r)

/-- Left-to-right stable insertion sort: `acc` is the sorted prefix. -/
def pySortAux : List PyVal → List PyVal → Option (List PyVal)
  | acc, [] => some acc
  | acc, x :: xs =>
    match insortPy x acc with
    | none => none
    | some acc2 => pySortAux acc2 xs

/-- Python's builtin `sorted`, as used by `normalize_value`: a stable sort
by `pyLt` in which any raising comparison raises `TypeError`. -/
def pySorted (l : List PyVal) : Option (List PyVal) := pySortAux [] l

mutual
/-- `normalize_value` (source lines 56–69).
  * dict: normalize every value, pair it with its key as the Python tuple
    `(k, normalize_value(v))`, and sort the pairs — `tuple(sorted((k,
    normalize_value(v)) for k, v in value.items()))`;
  * list: if every element satisfies `isinstance(x, PRIMITIVE_TYPES)`,
    return `tuple(value)` unchanged; otherwise normalize every element and
    sort — `tuple(sorted(normalize_value(x) for x in value))`;
  * anything else is returned unchanged. -/
def normalize_value : PyVal → Option PyVal
  | VDict kvs =>
    match normPairs kvs with
    | none => none
    | some pairs =>
      match pySorted pairs with
      | none => none
      | some s => some (VTuple s)
  | VList xs =>
    if xs.all isPrimitive then some (VTuple xs)
    else
      match normList xs with
      | none => none
      | some nxs =>
        match pySorted nxs with
        | none => none
        | some s => some (VTuple s)
  | v => some v

/-- Normalize every element of a list (the generator feeding `sorted`). -/
def normList : List PyVal → Option (List PyVal)
  | [] => some []
  | x :: xs =>
    match normalize_value x, normList xs with
    | some nx, some nxs => some (nx :: nxs)
    | _, _ => none

/-- Normalize every dict entry into the Python pair `(k, normalize_value
v)`, embedded as `VTuple [VStr k, ·]`. -/
def normPairs : List (String × PyVal) → Option (List PyVal)
  | [] => some []
  | (k, v) :: rest =>
    match normalize_value v, normPairs rest with
    | some nv, some nrest => some (VTuple [VStr k, nv] :: nrest)
    | _, _ => none
end

/-- Lowercase hexadecimal digit, as produced by Python's `json`. -/
def hexDigit (n : Nat) : Char :=
  if n < 10 then Char.ofNat (48 + n) else Char.ofNat (87 + n)

/-- Four-digit lowercase hexadecimal rendering of `n % 0x10000`. -/
def hex4 (n : Nat) : String :=
  String.mk [hexDigit (n / 4096 % 16), hexDigit (n / 256 % 16),
             hexDigit (n / 16 % 16), hexDigit (n % 16)]

/-- A `\uXXXX` escape. -/
def uEscape (n : Nat) : String := "\\u" ++ hex4 n

/-- Escaping of one character by `json.dumps` with the default
`ensure_ascii=True`: `"` and `\` get two-character escapes, the common
control characters get their named escapes, any other character outside
the printable ASCII range is rendered as `\uXXXX` (with a surrogate pair
beyond the Basic Multilingual Plane), and printable ASCII stands for
itself. -/
def escapeChar (c : Char) : String :=
  if c = '"' then "\\\""
  else if c = '\\' then "\\\\"
  else if c = '\n' then "\\n"
  else if c = '\t' then "\\t"
  else if c = '\r' then "\\r"
  else if c.toNat = 8 then "\\b"
  else if c.toNat = 12 then "\\f"
  else if c.toNat < 32 || 126 < c.toNat then
    if c.toNat < 65536 then uEscape c.toNat
    else
      uEscape (55296 + (c.toNat - 65536) / 1024) ++
      uEscape (56320 + (c.toNat - 65536) % 1024)
  else c.toString

/-- A JSON string literal: the escaped characters between double quotes. -/
def encodeString (s : String) : String :=
  "\"" ++ String.join (s.data.map escapeChar) ++ "\""

/-- Insert a dict entry in key order (for `sort_keys=True`). -/
def insertPairByKey (p : String × PyVal) :
    List (String × PyVal) → List (String × PyVal)
  | [] => [p]
  | q :: qs => if strLt p.1 q.1 then p :: q :: qs else q :: insertPairByKey p qs

/-- Sort dict entries by key (for `sort_keys=True`). -/
def sortPairsByKey : List (String × PyVal) → List (String × PyVal)
  | [] => []
  | p :: ps => insertPairByKey p (sortPairsByKey ps)

mutual
/-- The effect of `sort_keys=True`: every dict, at every depth, has its
entries emitted in key order.  We realize it as a pre-pass that sorts all
dict entries deeply; serializing the result without sorting is the same as
serializing the original with `sort_keys=True`.  On `normalize_value`
output (which contains no dict) this pass is the identity. -/
def sortKeysDeep : PyVal → PyVal
  | VDict kvs => VDict (sortPairsByKey (sortKeysDeepPairs kvs))
  | VList xs => VList (sortKeysDeepList xs)
  | VTuple xs => VTuple (sortKeysDeepList xs)
  | v => v

/-- `sortKeysDeep` on every element. -/
def sortKeysDeepList : List PyVal → List PyVal
  | [] => []
  | x :: xs => sortKeysDeep x :: sortKeysDeepList xs

/-- `sortKeysDeep` on every dict value. -/
def sortKeysDeepPairs : List (String × PyVal) → List (String × PyVal)
  | [] => []
  | (k, v) :: rest => (k, sortKeysDeep v) :: sortKeysDeepPairs rest
end

mutual
/-- Serialization with default `json` options — `null`/`true`/`false`
literals, decimal integers, escaped string literals, `list`s and `tuple`s
as JSON arrays with ", " separators, dicts as JSON objects — emitting dict
entries in stored order (the caller pre-sorts them for `sort_keys`). -/
def dumpsRaw : PyVal → String
  | VNone => "null"
  | VBool true => "true"
  | VBool false => "false"
  | VInt n => toString n
  | VStr s => encodeString s
  | VList xs => "[" ++ dumpsElems xs ++ "]"
  | VTuple xs => "[" ++ dumpsElems xs ++ "]"
  | VDict kvs => "\x7b" ++ dumpsEntries kvs ++ "\x7d"

/-- Array elements joined by ", ". -/
def dumpsElems : List PyVal → String
  | [] => ""
  | [x] => dumpsRaw x
  | x :: xs => dumpsRaw x ++ ", " ++ dumpsElems xs

/-- Object entries `"key": value` joined by ", ". -/
def dumpsEntries : List (String × PyVal) → String
  | [] => ""
  | [(k, v)] => encodeString k ++ ": " ++ dumpsRaw v
  | (k, v) :: rest =>
    encodeString k ++ ": " ++ dumpsRaw v ++ ", " ++ dumpsEntries rest
end

/-- `json.dumps(·, sort_keys=True)` with default options, on the embedded
values.  On the output of `normalize_value` (which contains no dict and no
list) only the scalar and tuple branches are ever taken. -/
def dumps (v : PyVal) : String := dumpsRaw (sortKeysDeep v)

/-- The Canonical Key computed for each record inside `solve` (source
lines 82–83): `json.dumps(normalize_value(d), sort_keys=True)`. -/
def canonicalKey (v : PyVal) : Option String :=
  match normalize_value v with
  | none => none
  | some nv => some (dumps nv)

/-- The loop of `solve` (source lines 80–87): `seen` is the set of keys
seen so far (a list suffices for membership).  For each record the key is
computed first (so a raising `normalize_value` aborts the whole call),
then the record is appended exactly when its key is new. -/
def solveAux : List String → List PyVal → Option (List PyVal)
  | _, [] => some []
  | seen, d :: ds =>
    match canonicalKey d with
    | none => none
    | some key =>
      if seen.contains key then solveAux seen ds
      else
        match solveAux (key :: seen) ds with
        | none => none
        | some rest => some (d :: rest)

/-- `solve` (source lines 71–88): deduplicate by canonical key, keeping
first occurrences in input order. -/
def solve (input_dicts : List PyVal) : Option (List PyVal) :=
  solveAux [] input_dicts

/-- The Python pair `(k, v)` produced for a dict entry by
`normalize_value`. -/
def mkPair (k : String) (v : PyVal) : PyVal := VTuple [VStr k, v]

/-- The key component of a dict-entry pair (arbitrary on other values). -/
def pairKey : PyVal → String
  | VTuple (VStr k :: _) => k
  | _ => ""

/-- A value of pair shape `(k, v)`. -/
def IsPair (p : PyVal) : Prop := ∃ k v, p = mkPair k v

/-- Duplicate-freedom of a key list (Python dict keys are unique). -/
def nodupKeys : List String → Bool
  | [] => true
  | k :: ks => !(ks.contains k) && nodupKeys ks

mutual
/-- Well-formed JSON values, the domain over which the spec quantifies:
built from null, booleans, integers, strings, arrays and objects — no
tuples (those arise only as canonicalizer output) — with the keys of each
object pairwise distinct, as Python dict keys are. -/
def wfJson : PyVal → Bool
  | VNone => true
  | VBool _ => true
  | VInt _ => true
  | VStr _ => true
  | VList xs => wfJsonList xs
  | VTuple _ => false
  | VDict kvs => nodupKeys (kvs.map Prod.fst) && wfJsonPairs kvs

/-- `wfJson` on every element. -/
def wfJsonList : List PyVal → Bool
  | [] => true
  | x :: xs => wfJson x && wfJsonList xs

/-- `wfJson` on every dict value. -/
def wfJsonPairs : List (String × PyVal) → Bool
  | [] => true
  | (_, v) :: rest => wfJson v && wfJsonPairs rest
end

/-- Spec §4.2, stated in the spec's own words: keep a record exactly when
its canonical key differs from the canonical key of every earlier record
(`earlier` accumulates all records already scanned, kept or dropped). -/
def specKeptAux : List PyVal → List PyVal → List PyVal
  | _, [] => []
  | earlier, d :: ds =>
    if earlier.any (fun p => decide (canonicalKey p = canonicalKey d)) then
      specKeptAux (earlier ++ [d]) ds
    else
      d :: specKeptAux (earlier ++ [d]) ds

/-- The subsequence of first occurrences demanded by the spec for
`deduplicate`. -/
def specFirstOccurrences (xs : List PyVal) : List PyVal := specKeptAux [] xs

mutual
/-- Values equal up to the insertion order of object entries: scalars must
be identical, array elements are related pointwise in order, and object
entry lists are related pointwise (equal keys, related values) and then
arbitrarily reordered.  This is the claim C8 relation "same key-value
pairs in different insertion orders", applied at every depth. -/
inductive ObjPermEq : PyVal → PyVal → Prop where
  | vnone : ObjPermEq VNone VNone
  | vbool (b : Bool) : ObjPermEq (VBool b) (VBool b)
  | vint (n : Int) : ObjPermEq (VInt n) (VInt n)
  | vstr (s : String) : ObjPermEq (VStr s) (VStr s)
  | vlist {xs ys : List PyVal} :
      ObjPermEqList xs ys → ObjPermEq (VList xs) (VList ys)
  | vdict {kvs mid kvs' : List (String × PyVal)} :
      ObjPermEqPairs kvs mid → mid.Perm kvs' →
      ObjPermEq (VDict kvs) (VDict kvs')

/-- Pointwise `ObjPermEq` of two element lists, in order. -/
inductive ObjPermEqList : List PyVal → List PyVal → Prop where
  | nil : ObjPermEqList [] []
  | cons {x y : PyVal} {xs ys : List PyVal} :
      ObjPermEq x y → ObjPermEqList xs ys → ObjPermEqList (x :: xs) (y :: ys)

/-- Pointwise relation of two entry lists: equal keys, related values. -/
inductive ObjPermEqPairs :
    List (String × PyVal) → List (String × PyVal) → Prop where
  | nil : ObjPermEqPairs [] []
  | cons (k : String) {v w : PyVal} {ps qs : List (String × PyVal)} :
      ObjPermEq v w → ObjPermEqPairs ps qs →
      ObjPermEqPairs ((k, v) :: ps) ((k, w) :: qs)
end

/-- Claim C1 (code bug): the canonical key is NOT injective across the
equivalence classes of the order rule.  The records `{"a": {}}` and
`{"a": []}` are not equivalent (an object is never equivalent to an
array), yet both canonicalize to the same key `[["a", []]]`, and `solve`
falsely merges them: the invariant "equal keys iff equivalent" fails. -/
theorem key_collision_object_vs_array :
    canonicalKey (VDict [("a", VDict [])]) = some "[[\"a\", []]]" ∧
    canonicalKey (VDict [("a", VList [])]) = some "[[\"a\", []]]" ∧
    solve [VDict [("a", VDict [])], VDict [("a", VList [])]] =
      some [VDict [("a", VDict [])]] :=
  ⟨rfl, rfl, rfl⟩

/-- Claim C3 (code bug): `normalize_value` and `solve` are not total on
well-formed JSON values.  The record `{"k": [null, null]}` is well-formed
JSON, but `None` is not in `PRIMITIVE_TYPES`, so the list `[null, null]`
takes the sorting branch and `sorted` raises `TypeError` comparing `None`
with `None`; the whole `solve` call raises. -/
theorem normalize_value_raises_on_null_pair :
    wfJson (VDict [("k", VList [VNone, VNone])]) = true ∧
    normalize_value (VDict [("k", VList [VNone, VNone])]) = none ∧
    solve [VDict [("k", VList [VNone, VNone])]] = none :=
  ⟨rfl, rfl, rfl⟩

/-- Claim C4 (code bug): an array all of whose elements are primitives in
the sense of the spec (numbers, strings, booleans, null) is NOT always
compared positionally, because the code's `PRIMITIVE_TYPES` omits
`NoneType`: `[null, 0]` is classified as non-primitive, and canonicalizing
it raises `TypeError` instead of preserving it unchanged. -/
theorem null_array_misclassified :
    isPrimitive VNone = false ∧
    (VList [VNone, VInt 0] |> fun v =>
      match v with
      | VList xs => xs.all isPrimitive
      | _ => true) = false ∧
    normalize_value (VList [VNone, VInt 0]) = none ∧
    normalize_value (VList [VInt 0, VNone]) = none :=
  ⟨rfl, rfl, rfl, rfl⟩

/-- Claim C5 (code bug): the empty object and the empty array do NOT get
distinct canonical forms: `normalize_value` maps both `{}` and `[]` to the
empty tuple `()`, so their keys coincide (`[]`), and a record containing
`{}` is merged with the otherwise-identical record containing `[]`. -/
theorem empty_object_empty_array_key_equal :
    normalize_value (VDict []) = some (VTuple []) ∧
    normalize_value (VList []) = some (VTuple []) ∧
    canonicalKey (VDict []) = canonicalKey (VList []) ∧
    solve [VDict [("e", VDict [])], VDict [("e", VList [])]] =
      some [VDict [("e", VDict [])]] :=
  ⟨rfl, rfl, rfl, rfl⟩

/-- Claim C6 (code bug): canonicalization of a non-pure-primitive array is
NOT a function of the multiset of canonicalized elements.  The arrays
`[[1], [true]]` and `[[true], [1]]` have the same multiset of canonicalized
elements — `(1,)` and `(True,)` — but since Python's default ordering
treats `1` and `True` as equal, the stable sort leaves each input order in
place and the two records get different canonical keys. -/
theorem nonprimitive_array_order_sensitive :
    normList [VList [VInt 1], VList [VBool true]] =
      some [VTuple [VInt 1], VTuple [VBool true]] ∧
    normList [VList [VBool true], VList [VInt 1]] =
      some [VTuple [VBool true], VTuple [VInt 1]] ∧
    List.Perm [VTuple [VInt 1], VTuple [VBool true]]
      [VTuple [VBool true], VTuple [VInt 1]] ∧
    canonicalKey (VDict [("k", VList [VList [VInt 1], VList [VBool true]])]) ≠
      canonicalKey (VDict [("k", VList [VList [VBool true], VList [VInt 1]])]) :=
  ⟨rfl, rfl, List.Perm.swap (VTuple [VBool true]) (VTuple [VInt 1]) [],
   by decide⟩

/-- The result of a successful `normalize_value` is never a dict and never
a list: dicts and lists are rewritten to tuples, every other value is
returned unchanged. -/
theorem normalize_result_not_container (v w : PyVal)
    (h : normalize_value v = some w) :
    (∀ kvs, w ≠ VDict kvs) ∧ (∀ xs, w ≠ VList xs) := by
  cases v with
  | VDict kvs =>
    simp only [normalize_value] at h
    split at h
    · exact absurd h (by simp)
    · split at h
      · exact absurd h (by simp)
      · injection h with h
        subst h
        exact ⟨fun _ h => PyVal.noConfusion h, fun _ h => PyVal.noConfusion h⟩
  | VList xs =>
    simp only [normalize_value] at h
    split at h
    · injection h with h
      subst h
      exact ⟨fun _ h => PyVal.noConfusion h, fun _ h => PyVal.noConfusion h⟩
    · split at h
      · exact absurd h (by simp)
      · split at h
        · exact absurd h (by simp)
        · injection h with h
          subst h
          exact ⟨fun _ h => PyVal.noConfusion h, fun _ h => PyVal.noConfusion h⟩
  | VNone =>
    injection h with h; subst h
    exact ⟨fun _ h => PyVal.noConfusion h, fun _ h => PyVal.noConfusion h⟩
  | VBool b =>
    injection h with h; subst h
    exact ⟨fun _ h => PyVal.noConfusion h, fun _ h => PyVal.noConfusion h⟩
  | VInt n =>
    injection h with h; subst h
    exact ⟨fun _ h => PyVal.noConfusion h, fun _ h => PyVal.noConfusion h⟩
  | VStr s =>
    injection h with h; subst h
    exact ⟨fun _ h => PyVal.noConfusion h, fun _ h => PyVal.noConfusion h⟩
  | VTuple xs =>
    injection h with h; subst h
    exact ⟨fun _ h => PyVal.noConfusion h, fun _ h => PyVal.noConfusion h⟩

/-- Claim C10 (confirmed): canonical forms are fixed points.  Whatever
`normalize_value` returns is a scalar or a tuple; neither is a dict or a
list, so running `normalize_value` on it returns it unchanged. -/
theorem normalize_value_idempotent (v w : PyVal)
    (h : normalize_value v = some w) : normalize_value w = some w := by
  obtain ⟨h1, h2⟩ := normalize_result_not_container v w h
  cases w with
  | VDict kvs => exact absurd rfl (h1 kvs)
  | VList xs => exact absurd rfl (h2 xs)
  | VNone => rfl
  | VBool b => rfl
  | VInt n => rfl
  | VStr s => rfl
  | VTuple xs => rfl

/-- Witness for C10 at a concrete input: normalizing `{"x": 1}` gives the
tuple `(("x", 1),)`, and normalizing that tuple returns it unchanged. -/
theorem normalize_value_idempotent_witness :
    normalize_value (VDict [("x", VInt 1)]) =
      some (VTuple [VTuple [VStr "x", VInt 1]]) ∧
    normalize_value (VTuple [VTuple [VStr "x", VInt 1]]) =
      some (VTuple [VTuple [VStr "x", VInt 1]]) :=
  ⟨rfl, normalize_value_idempotent (VDict [("x", VInt 1)]) _ rfl⟩

/-- Any successful `solveAux` run returns a subsequence of its input. -/
theorem solveAux_sublist (xs : List PyVal) :
    ∀ (seen : List String) (ys : List PyVal),
      solveAux seen xs = some ys → ys.Sublist xs := by
  induction xs with
  | nil =>
    intro seen ys h
    injection h with h
    subst h
    exact List.Sublist.refl []
  | cons d ds ih =>
    intro seen ys h
    cases hk : canonicalKey d with
    | none => simp only [solveAux, hk] at h; cases h
    | some key =>
      simp only [solveAux, hk] at h
      by_cases hs : seen.contains key = true
      · rw [if_pos hs] at h
        exact (ih seen ys h).cons d
      · rw [if_neg hs] at h
        cases hrec : solveAux (key :: seen) ds with
        | none => rw [hrec] at h; cases h
        | some rest =>
          rw [hrec] at h
          injection h with h
          subst h
          exact (ih (key :: seen) rest hrec).cons₂ d

/-- Claim C9 (confirmed): `solve` never constructs records.  Every
successful run returns a subsequence of the input list, so each output
record is one of the input records exactly as given (the embedding is
pure, so no value is ever mutated). -/
theorem solve_output_records_original (xs ys : List PyVal)
    (h : solve xs = some ys) :
    ys.Sublist xs ∧ ∀ r ∈ ys, r ∈ xs := by
  have hsub := solveAux_sublist xs [] ys h
  exact ⟨hsub, fun r hr => hsub.mem hr⟩

/-- Witness for C9: a concrete run with a duplicate record. -/
theorem solve_output_records_original_witness :
    solve [VDict [("a", VInt 1)], VDict [("b", VInt 2)],
           VDict [("a", VInt 1)]] =
      some [VDict [("a", VInt 1)], VDict [("b", VInt 2)]] ∧
    ([VDict [("a", VInt 1)], VDict [("b", VInt 2)]].Sublist
      [VDict [("a", VInt 1)], VDict [("b", VInt 2)], VDict [("a", VInt 1)]] ∧
     ∀ r ∈ [VDict [("a", VInt 1)], VDict [("b", VInt 2)]],
       r ∈ [VDict [("a", VInt 1)], VDict [("b", VInt 2)],
            VDict [("a", VInt 1)]]) :=
  ⟨rfl, solve_output_records_original _ _ rfl⟩

/-- `canonicalKey` succeeds exactly when `normalize_value` does. -/
theorem canonicalKey_isSome (v : PyVal) :
    (canonicalKey v).isSome = (normalize_value v).isSome := by
  unfold canonicalKey
  cases normalize_value v <;> rfl

/-- The spec-side filter is a subsequence of its input. -/
theorem specKeptAux_sublist (xs : List PyVal) :
    ∀ earlier : List PyVal, (specKeptAux earlier xs).Sublist xs := by
  induction xs with
  | nil => intro earlier; exact List.Sublist.refl []
  | cons d ds ih =>
    intro earlier
    simp only [specKeptAux]
    by_cases hc :
        (earlier.any fun p => decide (canonicalKey p = canonicalKey d)) = true
    · rw [if_pos hc]
      exact (ih (earlier ++ [d])).cons d
    · rw [if_neg hc]
      exact (ih (earlier ++ [d])).cons₂ d

/-- Bridge between the implementation loop and the spec-side filter: if
the seen set holds exactly the keys of the records already scanned, the
loop computes the spec's answer. -/
theorem solveAux_eq_specKept (xs : List PyVal) :
    ∀ (seen : List String) (earlier : List PyVal),
      (∀ d ∈ xs, (canonicalKey d).isSome) →
      (∀ s : String,
        seen.contains s = true ↔ ∃ p ∈ earlier, canonicalKey p = some s) →
      solveAux seen xs = some (specKeptAux earlier xs) := by
  induction xs with
  | nil => intro seen earlier _ _; rfl
  | cons d ds ih =>
    intro seen earlier h hinv
    obtain ⟨key, hk⟩ := Option.isSome_iff_exists.mp (h d (by simp))
    have hds : ∀ e ∈ ds, (canonicalKey e).isSome := fun e he =>
      h e (by simp [he])
    have hcond : (earlier.any fun p => decide (canonicalKey p = some key)) =
        seen.contains key := by
      by_cases hs : seen.contains key = true
      · rw [hs, List.any_eq_true]
        obtain ⟨p, hp, hpk⟩ := (hinv key).mp hs
        exact ⟨p, hp, by simp [hpk]⟩
      · have hs' : seen.contains key = false := by
          simpa using hs
        rw [hs', List.any_eq_false]
        intro p hp hpk
        exact hs ((hinv key).mpr ⟨p, hp, of_decide_eq_true hpk⟩)
    have hinvKept : ∀ s : String,
        (key :: seen).contains s = true ↔
          ∃ p ∈ earlier ++ [d], canonicalKey p = some s := by
      intro s
      constructor
      · intro hmem
        rw [List.contains_cons] at hmem
        rcases Bool.or_eq_true_iff.mp hmem with hm | hm
        · have hsk : s = key := by simpa using hm
          subst hsk
          exact ⟨d, by simp, hk⟩
        · obtain ⟨p, hp, hpk⟩ := (hinv s).mp hm
          exact ⟨p, by simp [hp], hpk⟩
      · intro ⟨p, hp, hpk⟩
        rw [List.contains_cons]
        rcases List.mem_append.mp hp with hp' | hp'
        · exact Bool.or_eq_true_iff.mpr (Or.inr ((hinv s).mpr ⟨p, hp', hpk⟩))
        · have hpd : p = d := by simpa using hp'
          subst hpd
          rw [hk] at hpk
          injection hpk with hpk
          subst hpk
          exact Bool.or_eq_true_iff.mpr (Or.inl (by simp))
    simp only [solveAux, specKeptAux, hk, hcond]
    by_cases hs : seen.contains key = true
    · rw [if_pos hs, if_pos hs]
      refine ih seen (earlier ++ [d]) hds fun s => ?_
      constructor
      · intro hmem
        obtain ⟨p, hp, hpk⟩ := (hinv s).mp hmem
        exact ⟨p, by simp [hp], hpk⟩
      · intro ⟨p, hp, hpk⟩
        rcases List.mem_append.mp hp with hp' | hp'
        · exact (hinv s).mpr ⟨p, hp', hpk⟩
        · have hpd : p = d := by simpa using hp'
          subst hpd
          rw [hk] at hpk
          injection hpk with hpk
          subst hpk
          exact hs
    · rw [if_neg hs, if_neg hs]
      rw [ih (key :: seen) (earlier ++ [d]) hds hinvKept]

/-- Claim C2 (confirmed): when every record canonicalizes, `solve` returns
exactly the spec's subsequence of first occurrences — the records whose
canonical key differs from the key of every earlier record, in input
order — and that output is a subsequence of the input of length at most
the input's length. -/
theorem solve_eq_specFirstOccurrences (xs : List PyVal)
    (h : ∀ d ∈ xs, (normalize_value d).isSome) :
    solve xs = some (specFirstOccurrences xs) ∧
    (specFirstOccurrences xs).Sublist xs ∧
    (specFirstOccurrences xs).length ≤ xs.length := by
  have h' : ∀ d ∈ xs, (canonicalKey d).isSome := fun d hd => by
    rw [canonicalKey_isSome]
    exact h d hd
  have hmain := solveAux_eq_specKept xs [] [] h' (by simp)
  have hsub := specKeptAux_sublist xs []
  exact ⟨hmain, hsub, hsub.length_le⟩

/-- Witness for C2 on Scenario-1-like data with a duplicate. -/
theorem solve_eq_specFirstOccurrences_witness :
    (∀ d ∈ [VDict [("Name", VStr "John"), ("Age", VInt 40)],
            VDict [("Age", VInt 40), ("Name", VStr "John")],
            VDict [("Name", VStr "Nancy"), ("Age", VInt 60)]],
       (normalize_value d).isSome) ∧
    (solve [VDict [("Name", VStr "John"), ("Age", VInt 40)],
            VDict [("Age", VInt 40), ("Name", VStr "John")],
            VDict [("Name", VStr "Nancy"), ("Age", VInt 60)]] =
      some (specFirstOccurrences
        [VDict [("Name", VStr "John"), ("Age", VInt 40)],
         VDict [("Age", VInt 40), ("Name", VStr "John")],
         VDict [("Name", VStr "Nancy"), ("Age", VInt 60)]]) ∧
     (specFirstOccurrences
        [VDict [("Name", VStr "John"), ("Age", VInt 40)],
         VDict [("Age", VInt 40), ("Name", VStr "John")],
         VDict [("Name", VStr "Nancy"), ("Age", VInt 60)]]).Sublist
       [VDict [("Name", VStr "John"), ("Age", VInt 40)],
        VDict [("Age", VInt 40), ("Name", VStr "John")],
        VDict [("Name", VStr "Nancy"), ("Age", VInt 60)]] ∧
     (specFirstOccurrences
        [VDict [("Name", VStr "John"), ("Age", VInt 40)],
         VDict [("Age", VInt 40), ("Name", VStr "John")],
         VDict [("Name", VStr "Nancy"), ("Age", VInt 60)]]).length ≤
       ([VDict [("Name", VStr "John"), ("Age", VInt 40)],
         VDict [("Age", VInt 40), ("Name", VStr "John")],
         VDict [("Name", VStr "Nancy"), ("Age", VInt 60)]] :
           List PyVal).length) :=
  ⟨fun d hd => by fin_cases hd <;> rfl,
   solve_eq_specFirstOccurrences _ (fun d hd => by fin_cases hd <;> rfl)⟩

/-- In a successful run, the output records have pairwise-distinct
canonical keys, and every output record's key is absent from the initial
seen set. -/
theorem solveAux_output_keys (xs : List PyVal) :
    ∀ (seen : List String) (ys : List PyVal),
      solveAux seen xs = some ys →
      ys.Pairwise (fun a b => canonicalKey a ≠ canonicalKey b) ∧
      ∀ d ∈ ys, ∃ k, canonicalKey d = some k ∧ seen.contains k = false := by
  induction xs with
  | nil =>
    intro seen ys h
    injection h with h
    subst h
    exact ⟨List.Pairwise.nil, by simp⟩
  | cons d ds ih =>
    intro seen ys h
    cases hk : canonicalKey d with
    | none => simp only [solveAux, hk] at h; cases h
    | some key =>
      simp only [solveAux, hk] at h
      by_cases hs : seen.contains key = true
      · rw [if_pos hs] at h
        exact ih seen ys h
      · rw [if_neg hs] at h
        cases hrec : solveAux (key :: seen) ds with
        | none => rw [hrec] at h; cases h
        | some rest =>
          rw [hrec] at h
          injection h with h
          subst h
          obtain ⟨hpw, hmem⟩ := ih (key :: seen) rest hrec
          constructor
          · refine List.Pairwise.cons ?_ hpw
            intro e he
            obtain ⟨ke, hke, hcont⟩ := hmem e he
            rw [hk, hke]
            intro hEq
            injection hEq with hEq
            subst hEq
            rw [List.contains_cons] at hcont
            simp at hcont
          · intro e he
            rcases List.mem_cons.mp he with he' | he'
            · subst he'
              exact ⟨key, hk, by simpa using hs⟩
            · obtain ⟨ke, hke, hcont⟩ := hmem e he'
              rw [List.contains_cons] at hcont
              exact ⟨ke, hke, by simpa using (Bool.or_eq_false_iff.mp hcont).2⟩

/-- A list whose records have pairwise-distinct keys, none in the seen
set, passes through the loop unchanged. -/
theorem solveAux_fixed (ys : List PyVal) :
    ∀ seen : List String,
      ys.Pairwise (fun a b => canonicalKey a ≠ canonicalKey b) →
      (∀ d ∈ ys, ∃ k, canonicalKey d = some k ∧ seen.contains k = false) →
      solveAux seen ys = some ys := by
  induction ys with
  | nil => intro seen _ _; rfl
  | cons d ds ih =>
    intro seen hpw hmem
    obtain ⟨key, hk, hcont⟩ := hmem d (by simp)
    simp only [solveAux, hk]
    rw [if_neg (by rw [hcont]; exact Bool.false_ne_true)]
    have hrec : solveAux (key :: seen) ds = some ds := by
      refine ih (key :: seen) (List.Pairwise.sublist (List.sublist_cons_self d ds) hpw) ?_
      intro e he
      obtain ⟨ke, hke, hce⟩ := hmem e (by simp [he])
      refine ⟨ke, hke, ?_⟩
      rw [List.contains_cons]
      have hne : ke ≠ key := by
        intro hEq
        subst hEq
        have := (List.pairwise_cons.mp hpw).1 e he
        rw [hk, hke] at this
        exact this rfl
      exact Bool.or_eq_false_iff.mpr ⟨beq_eq_false_iff_ne.mpr hne, hce⟩
    rw [hrec]

/-- Claim C7 (confirmed): `deduplicate` is idempotent — a successful
`solve` output passes through `solve` unchanged, because its records'
canonical keys are pairwise distinct. -/
theorem solve_idempotent (xs ys : List PyVal) (h : solve xs = some ys) :
    solve ys = some ys := by
  obtain ⟨hpw, hmem⟩ := solveAux_output_keys xs [] ys h
  exact solveAux_fixed ys [] hpw hmem

/-- Witness for C7: deduplicating a list with a duplicate, then
deduplicating the result, which is returned unchanged. -/
theorem solve_idempotent_witness :
    solve [VDict [("a", VInt 1)], VDict [("a", VInt 1)],
           VDict [("b", VInt 2)]] =
      some [VDict [("a", VInt 1)], VDict [("b", VInt 2)]] ∧
    solve [VDict [("a", VInt 1)], VDict [("b", VInt 2)]] =
      some [VDict [("a", VInt 1)], VDict [("b", VInt 2)]] :=
  ⟨rfl, solve_idempotent
    [VDict [("a", VInt 1)], VDict [("a", VInt 1)], VDict [("b", VInt 2)]]
    _ rfl⟩

/-- Characters with equal code points are equal. -/
theorem char_eq_of_toNat_eq {c d : Char} (h : c.toNat = d.toNat) : c = d :=
  Char.eq_of_val_eq (UInt32.ext h)

/-- Lexicographic character-list order is asymmetric. -/
theorem strLtAux_asymm : ∀ cs ds : List Char,
    strLtAux cs ds = true → strLtAux ds cs = false := by
  intro cs
  induction cs with
  | nil =>
    intro ds h
    cases ds with
    | nil => cases h
    | cons d ds' => rfl
  | cons c cs' ih =>
    intro ds h
    cases ds with
    | nil => cases h
    | cons d ds' =>
      simp only [strLtAux] at h ⊢
      rcases Nat.lt_trichotomy c.toNat d.toNat with hlt | heq | hgt
      · rw [if_neg (by omega), if_pos hlt]
      · rw [if_neg (by omega), if_neg (by omega)] at h
        rw [if_neg (by omega), if_neg (by omega)]
        exact ih ds' h
      · rw [if_neg (by omega), if_pos hgt] at h
        cases h

/-- Lexicographic character-list order is total on distinct lists. -/
theorem strLtAux_total : ∀ cs ds : List Char, cs ≠ ds →
    strLtAux cs ds = true ∨ strLtAux ds cs = true := by
  intro cs
  induction cs with
  | nil =>
    intro ds h
    cases ds with
    | nil => exact absurd rfl h
    | cons d ds' => exact Or.inl rfl
  | cons c cs' ih =>
    intro ds h
    cases ds with
    | nil => exact Or.inr rfl
    | cons d ds' =>
      simp only [strLtAux]
      rcases Nat.lt_trichotomy c.toNat d.toNat with hlt | heq | hgt
      · exact Or.inl (by rw [if_pos hlt])
      · have hcd : c = d := char_eq_of_toNat_eq heq
        subst hcd
        have hne : cs' ≠ ds' := fun hEq => h (by rw [hEq])
        rcases ih ds' hne with h' | h'
        · exact Or.inl (by rw [if_neg (by omega), if_neg (by omega)]; exact h')
        · exact Or.inr (by rw [if_neg (by omega), if_neg (by omega)]; exact h')
      · exact Or.inr (by rw [if_pos hgt])

/-- Lexicographic character-list order is transitive. -/
theorem strLtAux_trans : ∀ cs ds es : List Char,
    strLtAux cs ds = true → strLtAux ds es = true →
    strLtAux cs es = true := by
  intro cs
  induction cs with
  | nil =>
    intro ds es h1 h2
    cases ds with
    | nil => cases h1
    | cons d ds' =>
      cases es with
      | nil => cases h2
      | cons e es' => rfl
  | cons c cs' ih =>
    intro ds es h1 h2
    cases ds with
    | nil => cases h1
    | cons d ds' =>
      cases es with
      | nil => cases h2
      | cons e es' =>
        simp only [strLtAux] at h1 h2 ⊢
        rcases Nat.lt_trichotomy c.toNat d.toNat with hcd | hcd | hcd
        · rcases Nat.lt_trichotomy d.toNat e.toNat with hde | hde | hde
          · rw [if_pos (by omega)]
          · rw [if_pos (by omega)]
          · rw [if_neg (by omega), if_pos hde] at h2
            cases h2
        · rcases Nat.lt_trichotomy d.toNat e.toNat with hde | hde | hde
          · rw [if_pos (by omega)]
          · rw [if_neg (by omega), if_neg (by omega)] at h1 h2 ⊢
            exact ih ds' es' h1 h2
          · rw [if_neg (by omega), if_pos hde] at h2
            cases h2
        · rw [if_neg (by omega), if_pos hcd] at h1
          cases h1

/-- `strLt` is asymmetric. -/
theorem strLt_asymm {s t : String} (h : strLt s t = true) :
    strLt t s = false :=
  strLtAux_asymm s.data t.data h

/-- `strLt` is total on distinct strings. -/
theorem strLt_total {s t : String} (h : s ≠ t) :
    strLt s t = true ∨ strLt t s = true := by
  refine strLtAux_total s.data t.data fun hd => h ?_
  cases s
  cases t
  exact congrArg String.mk hd

/-- `strLt` is transitive. -/
theorem strLt_trans {s t u : String} (h1 : strLt s t = true)
    (h2 : strLt t u = true) : strLt s u = true :=
  strLtAux_trans s.data t.data u.data h1 h2

/-- The key of a constructed pair. -/
theorem pairKey_mkPair (k : String) (v : PyVal) : pairKey (mkPair k v) = k :=
  rfl

/-- Python compares two dict-entry pairs with distinct keys purely by key:
the tuple comparison hits the unequal key strings at index 0 and returns
their string comparison, never touching the values. -/
theorem pyLt_mkPair (k1 k2 : String) (v1 v2 : PyVal) (h : k1 ≠ k2) :
    pyLt (mkPair k1 v1) (mkPair k2 v2) = some (strLt k1 k2) := by
  have hne : pyEq (VStr k1) (VStr k2) = false := decide_eq_false h
  show pyLexLt [VStr k1, v1] [VStr k2, v2] = some (strLt k1 k2)
  simp only [pyLexLt]
  rw [if_neg (by rw [hne]; exact Bool.false_ne_true)]
  rfl

/-- Two sorted (strictly, by pair key) permutations of one multiset are
equal lists. -/
theorem pairwise_sorted_unique :
    ∀ r1 r2 : List PyVal, r1.Perm r2 →
      r1.Pairwise (fun p q => strLt (pairKey p) (pairKey q) = true) →
      r2.Pairwise (fun p q => strLt (pairKey p) (pairKey q) = true) →
      r1 = r2 := by
  intro r1
  induction r1 with
  | nil =>
    intro r2 hp _ _
    exact (hp.symm.eq_nil).symm
  | cons x xs ih =>
    intro r2 hp hpw1 hpw2
    cases r2 with
    | nil => cases hp.eq_nil
    | cons y ys =>
      by_cases hxy : x = y
      · subst hxy
        rw [ih ys hp.cons_inv (List.pairwise_cons.mp hpw1).2
            (List.pairwise_cons.mp hpw2).2]
      · have hx2 : x ∈ y :: ys := hp.mem_iff.mp (by simp)
        have hxys : x ∈ ys := by
          rcases List.mem_cons.mp hx2 with h' | h'
          · exact absurd h' hxy
          · exact h'
        have hy1 : y ∈ x :: xs := hp.mem_iff.mpr (by simp)
        have hyxs : y ∈ xs := by
          rcases List.mem_cons.mp hy1 with h' | h'
          · exact absurd h'.symm hxy
          · exact h'
        have h1 := (List.pairwise_cons.mp hpw1).1 y hyxs
        have h2 := (List.pairwise_cons.mp hpw2).1 x hxys
        rw [strLt_asymm h1] at h2
        cases h2

/-- Inserting a keyed pair into a strictly key-sorted list of pairs with
keys distinct from its own succeeds and yields a strictly key-sorted
permutation. -/
theorem insortPy_keyed (x : PyVal) : ∀ acc : List PyVal,
    (∀ y ∈ acc,
      pyLt x y = some (strLt (pairKey x) (pairKey y)) ∧
      pyLt y x = some (strLt (pairKey y) (pairKey x)) ∧
      pairKey y ≠ pairKey x) →
    acc.Pairwise (fun p q => strLt (pairKey p) (pairKey q) = true) →
    ∃ r, insortPy x acc = some r ∧ r.Perm (x :: acc) ∧
      r.Pairwise (fun p q => strLt (pairKey p) (pairKey q) = true) := by
  intro acc
  induction acc with
  | nil =>
    intro _ _
    exact ⟨[x], rfl, List.Perm.refl _, List.pairwise_singleton _ _⟩
  | cons y ys ih =>
    intro hcmp hpw
    obtain ⟨hxy, hyx, hkey⟩ := hcmp y (by simp)
    cases hlt : strLt (pairKey x) (pairKey y) with
    | true =>
      refine ⟨x :: y :: ys, by simp only [insortPy, hxy, hlt],
        List.Perm.refl _, List.pairwise_cons.mpr ⟨?_, hpw⟩⟩
      intro z hz
      rcases List.mem_cons.mp hz with hz' | hz'
      · rw [hz']
        exact hlt
      · exact strLt_trans hlt ((List.pairwise_cons.mp hpw).1 z hz')
    | false =>
      obtain ⟨r', hr', hperm', hpw'⟩ :=
        ih (fun z hz => hcmp z (by simp [hz])) (List.pairwise_cons.mp hpw).2
      have hylt : strLt (pairKey y) (pairKey x) = true := by
        rcases strLt_total hkey with h' | h'
        · exact h'
        · rw [hlt] at h'
          cases h'
      refine ⟨y :: r', ?_, ?_, ?_⟩
      · simp only [insortPy, hxy, hlt, hr']
        rfl
      · exact (List.Perm.cons y hperm').trans (List.Perm.swap x y ys)
      · refine List.pairwise_cons.mpr ⟨?_, hpw'⟩
        intro z hz
        rcases List.mem_cons.mp (hperm'.mem_iff.mp hz) with hz' | hz'
        · rw [hz']
          exact hylt
        · exact (List.pairwise_cons.mp hpw).1 z hz'

/-- The whole insertion sort on keyed pairs with pairwise-distinct keys
succeeds and returns a strictly key-sorted permutation of its input. -/
theorem pySortAux_keyed : ∀ rest acc : List PyVal,
    (∀ p ∈ acc ++ rest, IsPair p) →
    ((acc ++ rest).map pairKey).Nodup →
    acc.Pairwise (fun p q => strLt (pairKey p) (pairKey q) = true) →
    ∃ r, pySortAux acc rest = some r ∧ r.Perm (acc ++ rest) ∧
      r.Pairwise (fun p q => strLt (pairKey p) (pairKey q) = true) := by
  intro rest
  induction rest with
  | nil =>
    intro acc _ _ hpw
    exact ⟨acc, rfl, by simp, hpw⟩
  | cons x xs ih =>
    intro acc hpair hnd hpw
    have hndm := hnd
    rw [List.map_append] at hndm
    rw [List.nodup_append] at hndm
    obtain ⟨ndacc, ndrest, disj⟩ := hndm
    have hcmp : ∀ y ∈ acc,
        pyLt x y = some (strLt (pairKey x) (pairKey y)) ∧
        pyLt y x = some (strLt (pairKey y) (pairKey x)) ∧
        pairKey y ≠ pairKey x := by
      intro y hy
      obtain ⟨kx, vx, hx⟩ := hpair x (by simp)
      obtain ⟨ky, vy, hy'⟩ := hpair y (by simp [hy])
      have hkk : pairKey y ≠ pairKey x := by
        intro hEq
        exact disj (List.mem_map_of_mem pairKey hy)
          (hEq ▸ List.mem_map_of_mem pairKey (by simp))
      subst hx
      rw [hy'] at hkk ⊢
      rw [pairKey_mkPair, pairKey_mkPair] at hkk ⊢
      refine ⟨?_, ?_, hkk⟩
      · rw [pyLt_mkPair kx ky vx vy (Ne.symm hkk)]
      · rw [pyLt_mkPair ky kx vy vx hkk]
    obtain ⟨acc2, hacc2, hperm2, hpw2⟩ := insortPy_keyed x acc hcmp hpw
    have hbig : (acc2 ++ xs).Perm (acc ++ x :: xs) := by
      have h1 : (acc2 ++ xs).Perm ((x :: acc) ++ xs) :=
        hperm2.append_right xs
      have h2 : ((x :: acc) ++ xs) = x :: (acc ++ xs) := rfl
      rw [h2] at h1
      exact h1.trans List.perm_middle.symm
    obtain ⟨r, hr, hpermr, hpwr⟩ := ih acc2
      (fun p hp => hpair p (hbig.mem_iff.mp hp))
      ((List.Perm.nodup_iff (hbig.map pairKey)).mpr hnd)
      hpw2
    refine ⟨r, ?_, hpermr.trans hbig, hpwr⟩
    simp only [pySortAux, hacc2]
    exact hr

/-- `sorted` is a function of the multiset on lists of keyed pairs with
pairwise-distinct keys. -/
theorem pySorted_perm_keyed (l1 l2 : List PyVal) (hp : l1.Perm l2)
    (hpair : ∀ p ∈ l1, IsPair p) (hnd : (l1.map pairKey).Nodup) :
    pySorted l1 = pySorted l2 := by
  obtain ⟨r1, h1, hp1, hw1⟩ := pySortAux_keyed l1 [] hpair hnd List.Pairwise.nil
  obtain ⟨r2, h2, hp2, hw2⟩ := pySortAux_keyed l2 []
    (fun p hpm => hpair p (hp.mem_iff.mpr hpm))
    ((List.Perm.nodup_iff (hp.map pairKey)).mp hnd)
    List.Pairwise.nil
  show pySortAux [] l1 = pySortAux [] l2
  rw [h1, h2]
  rw [pairwise_sorted_unique r1 r2 ((hp1.trans hp).trans hp2.symm) hw1 hw2]

/-- A successful `normPairs` produces keyed pairs whose keys are exactly
the dict's keys, in order. -/
theorem normPairs_keys : ∀ (ps : List (String × PyVal)) (r : List PyVal),
    normPairs ps = some r →
    r.map pairKey = ps.map Prod.fst ∧ ∀ p ∈ r, IsPair p := by
  intro ps
  induction ps with
  | nil =>
    intro r h
    injection h with h
    subst h
    exact ⟨rfl, by simp⟩
  | cons kv rest ih =>
    intro r h
    obtain ⟨k, v⟩ := kv
    simp only [normPairs] at h
    cases hv : normalize_value v with
    | none => rw [hv] at h; cases h
    | some nv =>
      cases hr : normPairs rest with
      | none => rw [hv, hr] at h; cases h
      | some nrest =>
        rw [hv, hr] at h
        injection h with h
        subst h
        obtain ⟨hmap, hpair⟩ := ih nrest hr
        constructor
        · simp only [List.map_cons]
          rw [hmap]
          rfl
        · intro p hp
          rcases List.mem_cons.mp hp with hp' | hp'
          · exact ⟨k, nv, hp'⟩
          · exact hpair p hp'

/-- `normPairs` respects permutation of the entries: it fails on one order
exactly when it fails on the other, and successful results are
permutations of each other. -/
theorem normPairs_perm : ∀ ps qs : List (String × PyVal), ps.Perm qs →
    (normPairs ps = none ↔ normPairs qs = none) ∧
    ∀ r1 r2, normPairs ps = some r1 → normPairs qs = some r2 →
      r1.Perm r2 := by
  intro ps qs hp
  induction hp with
  | nil =>
    refine ⟨Iff.rfl, fun r1 r2 h1 h2 => ?_⟩
    rw [h1] at h2
    injection h2 with h2
    subst h2
    exact List.Perm.refl _
  | @cons a l1 l2 h ih =>
    obtain ⟨k, v⟩ := a
    simp only [normPairs]
    cases hv : normalize_value v with
    | none => exact ⟨Iff.rfl, fun r1 r2 h1 h2 => by cases h1⟩
    | some nv =>
      cases h1 : normPairs l1 with
      | none =>
        have h2 : normPairs l2 = none := (ih.1).mp h1
        rw [h2]
        exact ⟨Iff.rfl, fun r1 r2 h1' => by cases h1'⟩
      | some r1' =>
        cases h2 : normPairs l2 with
        | none => exact absurd ((ih.1).mpr h2) (by rw [h1]; simp)
        | some r2' =>
          refine ⟨by simp, fun r1 r2 hr1 hr2 => ?_⟩
          injection hr1 with hr1
          injection hr2 with hr2
          subst hr1
          subst hr2
          exact List.Perm.cons _ (ih.2 r1' r2' h1 h2)
  | @swap x y l =>
    obtain ⟨kx, vx⟩ := x
    obtain ⟨ky, vy⟩ := y
    simp only [normPairs]
    cases hvy : normalize_value vy with
    | none =>
      cases hvx : normalize_value vx with
      | none => exact ⟨Iff.rfl, fun r1 r2 h1 => by cases h1⟩
      | some nvx => exact ⟨Iff.rfl, fun r1 r2 h1 => by cases h1⟩
    | some nvy =>
      cases hvx : normalize_value vx with
      | none => exact ⟨Iff.rfl, fun r1 r2 h1 => by cases h1⟩
      | some nvx =>
        cases hl : normPairs l with
        | none => exact ⟨Iff.rfl, fun r1 r2 h1 => by cases h1⟩
        | some rl =>
          refine ⟨by simp, fun r1 r2 h1 h2 => ?_⟩
          injection h1 with h1
          injection h2 with h2
          subst h1
          subst h2
          exact List.Perm.swap _ _ _
  | @trans l1 l2 l3 h1 h2 ih1 ih2 =>
    refine ⟨ih1.1.trans ih2.1, fun r1 r2 hr1 hr2 => ?_⟩
    cases hm : normPairs l2 with
    | none =>
      have : normPairs l1 = none := (ih1.1).mpr hm
      rw [this] at hr1
      cases hr1
    | some rm => exact (ih1.2 r1 rm hr1 hm).trans (ih2.2 rm r2 hm hr2)

/-- Bool-level key dedup agrees with `List.Nodup`. -/
theorem nodupKeys_iff : ∀ ks : List String,
    nodupKeys ks = true ↔ ks.Nodup := by
  intro ks
  induction ks with
  | nil => simp [nodupKeys]
  | cons k ks' ih =>
    simp only [nodupKeys, Bool.and_eq_true, Bool.not_eq_true',
      List.nodup_cons, ih]
    constructor
    · intro ⟨hc, hnd⟩
      refine ⟨fun hm => ?_, hnd⟩
      rw [List.contains_eq_any_beq] at hc
      rw [List.any_eq_false] at hc
      exact absurd (by simp : (k == k) = true) (by simpa using hc k hm)
    · intro ⟨hm, hnd⟩
      refine ⟨?_, hnd⟩
      rw [List.contains_eq_any_beq, List.any_eq_false]
      intro x hx hEq
      have hxe : k = x := eq_of_beq hEq
      subst hxe
      exact hm hx

/-- Every value in a well-formed entry list is well-formed. -/
theorem wfJsonPairs_mem : ∀ ps : List (String × PyVal),
    wfJsonPairs ps = true → ∀ p ∈ ps, wfJson p.2 = true := by
  intro ps
  induction ps with
  | nil => intro _ p hp; cases hp
  | cons kv rest ih =>
    obtain ⟨k, v⟩ := kv
    intro h p hp
    rw [show wfJsonPairs ((k, v) :: rest) = (wfJson v && wfJsonPairs rest)
      from rfl, Bool.and_eq_true] at h
    rcases List.mem_cons.mp hp with hp' | hp'
    · rw [hp']
      exact h.1
    · exact ih h.2 p hp'

/-- An entry list all of whose values are well-formed is well-formed. -/
theorem wfJsonPairs_of_mem : ∀ ps : List (String × PyVal),
    (∀ p ∈ ps, wfJson p.2 = true) → wfJsonPairs ps = true := by
  intro ps
  induction ps with
  | nil => intro _; rfl
  | cons kv rest ih =>
    obtain ⟨k, v⟩ := kv
    intro h
    rw [show wfJsonPairs ((k, v) :: rest) = (wfJson v && wfJsonPairs rest)
      from rfl, Bool.and_eq_true]
    exact ⟨h (k, v) (by simp), ih fun p hp => h p (by simp [hp])⟩

/-- `ObjPermEq` relates a primitive only to itself. -/
theorem objPermEq_isPrimitive {x y : PyVal} (h : ObjPermEq x y) :
    isPrimitive x = isPrimitive y := by
  cases h <;> rfl

/-- On primitives, `ObjPermEq` is equality. -/
theorem objPermEq_eq_of_primitive {x y : PyVal} (h : ObjPermEq x y)
    (hp : isPrimitive x = true) : x = y := by
  cases h <;> first
    | rfl
    | exact absurd hp (by simp [isPrimitive])

/-- Pointwise-related element lists agree on the all-primitive test. -/
theorem objPermEqList_all_primitive : ∀ {xs ys : List PyVal},
    ObjPermEqList xs ys → xs.all isPrimitive = ys.all isPrimitive := by
  intro xs
  induction xs with
  | nil => intro ys h; cases h; rfl
  | cons x xs' ih =>
    intro ys h
    cases h with
    | cons hxy hrest =>
      simp only [List.all_cons, objPermEq_isPrimitive hxy, ih hrest]

/-- Pointwise-related all-primitive element lists are equal. -/
theorem objPermEqList_eq_of_all_primitive : ∀ {xs ys : List PyVal},
    ObjPermEqList xs ys → xs.all isPrimitive = true → xs = ys := by
  intro xs
  induction xs with
  | nil => intro ys h _; cases h; rfl
  | cons x xs' ih =>
    intro ys h hall
    cases h with
    | cons hxy hrest =>
      rw [List.all_cons, Bool.and_eq_true] at hall
      rw [objPermEq_eq_of_primitive hxy hall.1, ih hrest hall.2]

/-- Pointwise-related entry lists have identical key lists. -/
theorem objPermEqPairs_keys : ∀ {ps qs : List (String × PyVal)},
    ObjPermEqPairs ps qs → ps.map Prod.fst = qs.map Prod.fst := by
  intro ps
  induction ps with
  | nil => intro qs h; cases h; rfl
  | cons kv rest ih =>
    intro qs h
    cases h with
    | cons k hvw hrest =>
      simp only [List.map_cons]
      rw [ih hrest]

mutual
/-- Normalization of a well-formed value is unchanged by reordering the
entries of any of its objects. -/
theorem objPermEq_normalize : ∀ {a b : PyVal}, ObjPermEq a b →
    wfJson a = true → wfJson b = true →
    normalize_value a = normalize_value b := by
  intro a b h
  match h with
  | .vnone => intro _ _; rfl
  | .vbool x => intro _ _; rfl
  | .vint n => intro _ _; rfl
  | .vstr s => intro _ _; rfl
  | @ObjPermEq.vlist xs ys hl =>
    intro ha hb
    have hprim := objPermEqList_all_primitive hl
    by_cases hp : xs.all isPrimitive = true
    · rw [objPermEqList_eq_of_all_primitive hl hp]
    · show normalize_value (VList xs) = normalize_value (VList ys)
      simp only [normalize_value]
      rw [if_neg hp, if_neg (fun hy => hp (by rw [hprim]; exact hy))]
      rw [objPermEqList_normList hl ha hb]
  | @ObjPermEq.vdict kvs mid kvs' hps hperm =>
    intro ha hb
    rw [show wfJson (VDict kvs) =
        (nodupKeys (List.map Prod.fst kvs) && wfJsonPairs kvs) from rfl,
      Bool.and_eq_true] at ha
    obtain ⟨hndk, hwfk⟩ := ha
    rw [show wfJson (VDict kvs') =
        (nodupKeys (List.map Prod.fst kvs') && wfJsonPairs kvs') from rfl,
      Bool.and_eq_true] at hb
    obtain ⟨hndk', hwfk'⟩ := hb
    have hwfm : wfJsonPairs mid = true :=
      wfJsonPairs_of_mem mid fun p hp =>
        wfJsonPairs_mem kvs' hwfk' p (hperm.mem_iff.mp hp)
    have hkeys : kvs.map Prod.fst = mid.map Prod.fst :=
      objPermEqPairs_keys hps
    have hnp : normPairs kvs = normPairs mid :=
      objPermEqPairs_normPairs hps hwfk hwfm
    have hpp := normPairs_perm mid kvs' hperm
    show normalize_value (VDict kvs) = normalize_value (VDict kvs')
    simp only [normalize_value]
    rw [hnp]
    cases hm : normPairs mid with
    | none =>
      rw [(hpp.1).mp hm]
    | some rm =>
      cases hk' : normPairs kvs' with
      | none => exact absurd ((hpp.1).mpr hk') (by rw [hm]; simp)
      | some r2 =>
        have hrperm : rm.Perm r2 := hpp.2 rm r2 hm hk'
        obtain ⟨hmapm, hpairm⟩ := normPairs_keys mid rm hm
        have hndm : (rm.map pairKey).Nodup := by
          rw [hmapm, ← hkeys]
          exact (nodupKeys_iff _).mp hndk
        show (match pySorted rm with
          | none => none
          | some s => some (VTuple s)) =
          (match pySorted r2 with
          | none => none
          | some s => some (VTuple s))
        rw [pySorted_perm_keyed rm r2 hrperm hpairm hndm]

/-- `objPermEq_normalize`, pointwise over element lists. -/
theorem objPermEqList_normList : ∀ {xs ys : List PyVal},
    ObjPermEqList xs ys →
    wfJsonList xs = true → wfJsonList ys = true →
    normList xs = normList ys := by
  intro xs ys h
  match h with
  | .nil => intro _ _; rfl
  | @ObjPermEqList.cons x y xs' ys' hxy hrest =>
    intro hx hy
    rw [show wfJsonList (x :: xs') = (wfJson x && wfJsonList xs') from rfl,
      Bool.and_eq_true] at hx
    rw [show wfJsonList (y :: ys') = (wfJson y && wfJsonList ys') from rfl,
      Bool.and_eq_true] at hy
    show normList (x :: xs') = normList (y :: ys')
    simp only [normList]
    rw [objPermEq_normalize hxy hx.1 hy.1,
      objPermEqList_normList hrest hx.2 hy.2]

/-- `objPermEq_normalize`, pointwise over entry lists. -/
theorem objPermEqPairs_normPairs : ∀ {ps qs : List (String × PyVal)},
    ObjPermEqPairs ps qs →
    wfJsonPairs ps = true → wfJsonPairs qs = true →
    normPairs ps = normPairs qs := by
  intro ps qs h
  match h with
  | .nil => intro _ _; rfl
  | @ObjPermEqPairs.cons k v w ps' qs' hvw hrest =>
    intro hp hq
    rw [show wfJsonPairs ((k, v) :: ps') = (wfJson v && wfJsonPairs ps')
      from rfl, Bool.and_eq_true] at hp
    rw [show wfJsonPairs ((k, w) :: qs') = (wfJson w && wfJsonPairs qs')
      from rfl, Bool.and_eq_true] at hq
    show normPairs ((k, v) :: ps') = normPairs ((k, w) :: qs')
    simp only [normPairs]
    rw [objPermEq_normalize hvw hp.1 hq.1,
      objPermEqPairs_normPairs hrest hp.2 hq.2]
end

/-- Claim C8 (confirmed): canonical keys are insertion-order independent —
two well-formed values whose objects hold the same key-value pairs, in any
insertion orders at any depth, normalize identically and get identical
canonical keys.  (Determinism across repeated calls is inherent: the
embedding is a pure function of the value, as is the Python code, which
reads no global state.) -/
theorem canonicalKey_insertion_order_independent (a b : PyVal)
    (ha : wfJson a = true) (hb : wfJson b = true) (h : ObjPermEq a b) :
    normalize_value a = normalize_value b ∧
    canonicalKey a = canonicalKey b := by
  have hn := objPermEq_normalize h ha hb
  refine ⟨hn, ?_⟩
  unfold canonicalKey
  rw [hn]

/-- Witness for C8: the two insertion orders of `{"Name": "John", "Age":
40}` share one canonical key. -/
theorem canonicalKey_insertion_order_independent_witness :
    wfJson (VDict [("Name", VStr "John"), ("Age", VInt 40)]) = true ∧
    wfJson (VDict [("Age", VInt 40), ("Name", VStr "John")]) = true ∧
    canonicalKey (VDict [("Name", VStr "John"), ("Age", VInt 40)]) =
      canonicalKey (VDict [("Age", VInt 40), ("Name", VStr "John")]) :=
  ⟨rfl, rfl,
   (canonicalKey_insertion_order_independent
     (VDict [("Name", VStr "John"), ("Age", VInt 40)])
     (VDict [("Age", VInt 40), ("Name", VStr "John")]) rfl rfl
     (ObjPermEq.vdict
       (ObjPermEqPairs.cons "Name" (ObjPermEq.vstr "John")
         (ObjPermEqPairs.cons "Age" (ObjPermEq.vint 40) ObjPermEqPairs.nil))
       (List.Perm.swap ("Age", VInt 40) ("Name", VStr "John") []))).2⟩
